import Mathlib

/-!
Verification development for the `HashIndex` module of the scc repository
(`src/hashindex.rs`): a shallow embedding of its hashing, reservation and
resize logic, together with theorems checking the natural-language
specification against the code.

Modelling conventions:
* machine integers (`usize`, `u64`, `u8`) are embedded as `Nat` with an
  explicit `% 2 ^ w` wherever the Rust code can wrap; `usize` is taken to
  be 64 bits wide, so the Rust expression
  `1usize << (std::mem::size_of::<usize>() * 8 - 1)` becomes `1 <<< 63`;
* the `Cell` and `Array` collaborators (`src/cell.rs`, `src/array.rs`) are
  not part of the repository snapshot; the few operations the core needs
  from them are modelled from the specification and are marked
  `Modelled from the spec:` in their doc comments;
* the concurrent retry loops are embedded with sequential (single-threaded)
  semantics: a cell lock always succeeds and the array pointer does not
  change between two consecutive loads unless the modelled operation itself
  changes it.  Environment interference that a claim mentions (another
  thread holding the resize flag, a concurrently swapped array pointer) is
  passed to the embedded function as an explicit boolean input.
-/

namespace SccHashIndex

/-- Constant `DEFAULT_CAPACITY` of `src/hashindex.rs` (line 13). -/
def DEFAULT_CAPACITY : Nat := 64

/-- Modelled from the spec: `ARRAY_SIZE`, the per-cell capacity ceiling, is a
constant of the absent `src/cell.rs`.  The value 16 is used: it is divisible
by 8 (the reservation threshold `sample_size * (ARRAY_SIZE / 8) * 7` is
exactly 7/8 of the sampled capacity only then) and divides
`DEFAULT_CAPACITY`.  No settled claim depends on the exact value. -/
def ARRAY_SIZE : Nat := 16

/-- Modelled from the spec: `MAX_RESIZING_FACTOR` is a constant of the absent
`src/cell.rs`.  The comment in `HashIndex::resize` says the array "Grows up
to 64x", so `2 ^ MAX_RESIZING_FACTOR = 64`. -/
def MAX_RESIZING_FACTOR : Nat := 6

/-- The Rust expression `1usize << (std::mem::size_of::<usize>() * 8 - 1)`
from `HashIndex::resize` (line 344), with a 64-bit `usize`. -/
def maxCapacity : Nat := 1 <<< 63

/-- Fuel-driven worker for `nextPow2`: starting from `acc`, keep doubling
until the accumulator reaches `n` (or the fuel runs out). -/
def nextPow2Go (n : Nat) : Nat → Nat → Nat
  | 0, acc => acc
  | fuel + 1, acc => if n ≤ acc then acc else nextPow2Go n fuel (acc * 2)

/-- Rust's `usize::next_power_of_two`: the least power of two that is at
least `n` (and 1 for `n = 0`), embedded for the range where the Rust
operation does not overflow.  `n` itself is enough fuel because
`n ≤ 2 ^ n`. -/
def nextPow2 (n : Nat) : Nat := nextPow2Go n n 1

theorem nextPow2Go_pow (n : Nat) : ∀ (fuel acc : Nat), (∃ k, acc = 2 ^ k) →
    ∃ k, nextPow2Go n fuel acc = 2 ^ k := by
  intro fuel
  induction fuel with
  | zero => intro acc h; exact h
  | succ fuel ih =>
      intro acc h
      unfold nextPow2Go
      by_cases hle : n ≤ acc
      · simpa [hle] using h
      · obtain ⟨k, rfl⟩ := h
        simpa [hle] using ih (2 ^ k * 2) ⟨k + 1, by ring⟩

theorem nextPow2Go_ge (n : Nat) : ∀ (fuel acc : Nat), n ≤ acc * 2 ^ fuel →
    n ≤ nextPow2Go n fuel acc := by
  intro fuel
  induction fuel with
  | zero => intro acc h; simpa [nextPow2Go] using h
  | succ fuel ih =>
      intro acc h
      unfold nextPow2Go
      by_cases hle : n ≤ acc
      · simp [hle]
      · have : n ≤ acc * 2 * 2 ^ fuel := by
          have := h
          rw [pow_succ] at this
          calc n ≤ acc * (2 ^ fuel * 2) := this
            _ = acc * 2 * 2 ^ fuel := by ring
        simpa [hle] using ih (acc * 2) this

theorem nextPow2Go_min (n : Nat) : ∀ (fuel acc j k : Nat), acc = 2 ^ j →
    n ≤ 2 ^ k → 2 ^ j ≤ 2 ^ k → nextPow2Go n fuel acc ≤ 2 ^ k := by
  intro fuel
  induction fuel with
  | zero => intro acc j k hacc _ hjk; simpa [nextPow2Go, hacc] using hjk
  | succ fuel ih =>
      intro acc j k hacc hn hjk
      subst hacc
      unfold nextPow2Go
      by_cases hle : n ≤ 2 ^ j
      · simpa [hle] using hjk
      · have hjlt : 2 ^ j < 2 ^ k := lt_of_lt_of_le (lt_of_not_ge hle) hn
        have hjk' : j < k := (pow_lt_pow_iff_right₀ (by norm_num)).1 hjlt
        have hnext : 2 ^ (j + 1) ≤ 2 ^ k :=
          pow_le_pow_right₀ (by norm_num) hjk'
        simp only [hle, if_false]
        exact ih (2 ^ j * 2) (j + 1) k (by ring) hn hnext

theorem nextPow2_pow (n : Nat) : ∃ k, nextPow2 n = 2 ^ k :=
  nextPow2Go_pow n n 1 ⟨0, rfl⟩

theorem nextPow2_ge (n : Nat) : n ≤ nextPow2 n :=
  nextPow2Go_ge n n 1 (by simpa using (Nat.lt_two_pow n).le)

theorem nextPow2_min (n k : Nat) (h : n ≤ 2 ^ k) : nextPow2 n ≤ 2 ^ k :=
  nextPow2Go_min n n 1 0 k rfl h (Nat.one_le_two_pow)

/-- The `new_capacity` computation of `HashIndex::resize`
(`src/hashindex.rs` lines 343-370), as a pure function of the current
capacity, the estimated number of entries and the minimum capacity. -/
def newCapacity (cap est minCap : Nat) : Nat :=
  if (cap / 8) * 7 ≤ est then
    if cap = maxCapacity then
      cap
    else if est ≤ (cap / 8) * 9 then
      cap * 2
    else
      let cand := min (nextPow2 est) (maxCapacity / 2) * 2
      if 1 <<< MAX_RESIZING_FACTOR < cand / cap then
        cap * (1 <<< MAX_RESIZING_FACTOR)
      else
        cand
  else if est ≤ cap / 8 then
    max (nextPow2 est) minCap
  else
    cap

/-- Modelled from the spec: the observable state of one `Array` generation
(`src/array.rs` is absent).  The core only reads, per cell, the live entry
count (`Cell::num_entries`), the array-wide sampling bound
(`Array::num_sample_size`) and whether an old array is attached
(`Array::old_array(..).is_null()`), so the model carries exactly those:
`cells` lists each cell's entry count in index order. -/
structure ArrayModel where
  cells : List Nat
  sampleSize : Nat
  oldAttached : Bool
deriving DecidableEq

/-- Modelled from the spec: `Array::num_cells`, the number of cells of the
generation. -/
def numCells (a : ArrayModel) : Nat := a.cells.length

/-- Modelled from the spec: `Array::capacity`, the total slot capacity; each
cell holds up to `ARRAY_SIZE` entries. -/
def capacity (a : ArrayModel) : Nat := numCells a * ARRAY_SIZE

/-- Modelled from the spec: `Cell::num_entries` of the cell at index `i`
(0 when `i` is out of range). -/
def cellNumEntries (a : ArrayModel) (i : Nat) : Nat := a.cells.getD i 0

/-- Modelled from the spec: `Array::calculate_cell_index`; §3 of the spec
fixes it as `hash(key) mod N` with `N` the number of cells. -/
def calculateCellIndex (a : ArrayModel) (hash : Nat) : Nat := hash % numCells a

/-- The mutable state of a `HashIndex` that the resize and reservation logic
reads: the current array generation and the `minimum_capacity` field. -/
structure HashIndexState where
  arr : ArrayModel
  minimumCapacity : Nat
deriving DecidableEq

/-- The expression `(num_cells / 8).max(DEFAULT_CAPACITY / ARRAY_SIZE).min(4096)`
of `HashIndex::resize` (line 341). -/
def numCellsToSample (n : Nat) : Nat := min (max (n / 8) (DEFAULT_CAPACITY / ARRAY_SIZE)) 4096

/-- The expression `num_cells / num_cells_to_sample` of `HashIndex::resize`
(line 342, marked `[TODO] Size estimation.` in the source): the estimated
entry count the resize policy actually uses. -/
def estimatedNumEntries (a : ArrayModel) : Nat :=
  numCells a / numCellsToSample (numCells a)

/-- Modelled from the spec: `Array::new(new_capacity, old)` allocates a fresh
generation of empty cells whose `old_array` slot points at the array being
replaced.  The sampling bound of the fresh array is immaterial to every
settled claim; the model bounds it by 4096 as §4.4 bounds all sampling. -/
def newArray (cap : Nat) : ArrayModel :=
  ⟨List.replicate (cap / ARRAY_SIZE) 0, min (cap / ARRAY_SIZE) 4096, true⟩

/-- `HashIndex::resize` (`src/hashindex.rs` lines 317-385) under sequential
semantics.  The two concurrency inputs are explicit: `otherHolds` is the
previous value of the `resize_mutex` flag the `swap(true, Acquire)` returns
(line 327: another thread holds the mutex), and `ptrChanged` is whether the
re-loaded array pointer differs from the one loaded on entry (line 332).
Returns the state after the call and whether a new array was allocated and
published. -/
def resizeStep (st : HashIndexState) (otherHolds ptrChanged : Bool) :
    HashIndexState × Bool :=
  if otherHolds then
    (st, false)
  else if ptrChanged then
    (st, false)
  else
    let cap := capacity st.arr
    let newCap := newCapacity cap (estimatedNumEntries st.arr) st.minimumCapacity
    if newCap ≠ cap then
      (⟨newArray newCap, st.minimumCapacity⟩, true)
    else
      (st, false)

/-- The threshold `sample_size * (ARRAY_SIZE / 8) * 7` of `HashIndex::reserve`
(line 257). -/
def reserveThreshold (a : ArrayModel) : Nat := a.sampleSize * (ARRAY_SIZE / 8) * 7

/-- The sampling loop of `HashIndex::reserve` (lines 258-265): accumulate the
entry counts of the listed cells into `acc` and report whether the running
sum ever exceeds `thr` (the loop breaks, and calls `resize`, at the first
cell where it does). -/
def sampleExceeds : List Nat → Nat → Nat → Bool
  | [], _, _ => false
  | e :: rest, acc, thr => if thr < acc + e then true else sampleExceeds rest (acc + e) thr

theorem sampleExceeds_eq_sum (thr : Nat) :
    ∀ (xs : List Nat) (acc : Nat), acc ≤ thr →
      sampleExceeds xs acc thr = decide (thr < acc + xs.sum) := by
  intro xs
  induction xs with
  | nil => intro acc hacc; simp [sampleExceeds]; omega
  | cons e rest ih =>
      intro acc hacc
      unfold sampleExceeds
      by_cases h : thr < acc + e
      · have hlt : thr < acc + (e + rest.sum) := by omega
        simp [h, List.sum_cons, hlt]
      · have h2 : acc + e ≤ thr := by omega
        rw [if_neg h, ih (acc + e) h2, List.sum_cons, Nat.add_assoc]

/-- The body of the resize-signal path of `HashIndex::reserve` (lines
249-266) after it has dropped the cell lock: if no old array is attached to
the (re-loaded) current array, sample the first `num_sample_size` cells and
call `resize` as soon as the accumulated count exceeds the threshold.
Sequentially the re-loaded array is the one already in the state. -/
def reserveResizeCheck (st : HashIndexState) : HashIndexState :=
  if st.arr.oldAttached = false then
    if sampleExceeds (st.arr.cells.take st.arr.sampleSize) 0 (reserveThreshold st.arr) then
      (resizeStep st false false).1
    else
      st
  else
    st

/-- The retry loop of `HashIndex::reserve` (lines 243-270) under sequential
semantics: `lock` always returns the cell of the current array the hash
indexes, so each iteration computes that index, and takes the resize-signal
path when `resize_triggered` is still unset, the index is below `ARRAY_SIZE`
and the cell's entry count has reached `ARRAY_SIZE` (line 245-248).  Returns
the final state, the index of the cell finally reserved, and how many times
the resize-signal path ran.  `fuel` bounds the loop; two iterations always
suffice sequentially. -/
def reserveLoop (hash : Nat) : Nat → HashIndexState → Bool → HashIndexState × Nat × Nat
  | 0, st, _ => (st, calculateCellIndex st.arr hash, 0)
  | fuel + 1, st, rt =>
    let ci := calculateCellIndex st.arr hash
    if rt = false ∧ ci < ARRAY_SIZE ∧ ARRAY_SIZE ≤ cellNumEntries st.arr ci then
      let r := reserveLoop hash fuel (reserveResizeCheck st) true
      (r.1, r.2.1, r.2.2 + 1)
    else
      (st, ci, 0)

theorem reserveLoop_triggered (hash : Nat) :
    ∀ (fuel : Nat) (st : HashIndexState), (reserveLoop hash fuel st true).2.2 = 0 := by
  intro fuel st
  cases fuel with
  | zero => rfl
  | succ fuel => simp [reserveLoop]

/-- Rust's `u64::rotate_right(x, n)` for `0 < n < 64` and `x < 2 ^ 64`: the
low `n` bits wrap around to the top. -/
def rotr (x n : Nat) : Nat := (x >>> n) ||| ((x % 2 ^ n) <<< (64 - n))

/-- First mixing step of `HashIndex::hash` (line 226):
`hash ^ (rotate_right(25) ^ rotate_right(50))`. -/
def bitmixStep1 (h : Nat) : Nat := h ^^^ (rotr h 25 ^^^ rotr h 50)

/-- Second mixing step (line 227): wrapping multiplication by
`0xA24BAED4963EE407`. -/
def bitmixStep2 (h : Nat) : Nat := (h * 0xA24BAED4963EE407) % 2 ^ 64

/-- Third mixing step (line 228):
`hash ^ (rotate_right(24) ^ rotate_right(49))`. -/
def bitmixStep3 (h : Nat) : Nat := h ^^^ (rotr h 24 ^^^ rotr h 49)

/-- Fourth mixing step (line 229): wrapping multiplication by
`0x9FB21C651E98DF25`. -/
def bitmixStep4 (h : Nat) : Nat := (h * 0x9FB21C651E98DF25) % 2 ^ 64

/-- Final mixing step (line 230): `hash ^ (hash >> 28)`. -/
def bitmixStep5 (h : Nat) : Nat := h ^^^ (h >>> 28)

/-- The avalanche mix of `HashIndex::hash` (lines 226-230) applied to the
builder-derived 64-bit hash `h0` (`self.build_hasher.build_hasher()` then
`key.hash(..)` then `finish()`, lines 221-223, abstracted as the input). -/
def bitmix (h0 : Nat) : Nat :=
  bitmixStep5 (bitmixStep4 (bitmixStep3 (bitmixStep2 (bitmixStep1 h0))))

/-- Rust's `u64 -> u8` `try_into()`: succeeds exactly on values below 256. -/
def tryIntoU8 (n : Nat) : Option Nat := if n < 256 then some n else none

/-- The pair `HashIndex::hash` returns (line 231): the mixed full hash and
the result of `(hash & ((1 << 8) - 1)).try_into()` (the source unwraps the
second component).  The raw builder hash `h0` is the function's input, so
determinism for a fixed `(build_hasher, key)` is determinism of this
function. -/
def hashPair (h0 : Nat) : Nat × Option Nat :=
  (bitmix h0, tryIntoU8 (bitmix h0 &&& ((1 <<< 8) - 1)))

theorem rotr_lt_two_pow (x n : Nat) (hx : x < 2 ^ 64) (hn : n ≤ 64) :
    rotr x n < 2 ^ 64 := by
  unfold rotr
  apply Nat.or_lt_two_pow
  · calc x >>> n ≤ x := by
          rw [Nat.shiftRight_eq_div_pow]; exact Nat.div_le_self x (2 ^ n)
      _ < 2 ^ 64 := hx
  · rw [Nat.shiftLeft_eq]
    calc x % 2 ^ n * 2 ^ (64 - n) < 2 ^ n * 2 ^ (64 - n) := by
          exact Nat.mul_lt_mul_of_lt_of_le
            (Nat.mod_lt x (Nat.pos_pow_of_pos _ (by norm_num)))
            (le_refl _) (Nat.pos_pow_of_pos _ (by norm_num))
      _ = 2 ^ 64 := by rw [← pow_add]; congr 1; omega

theorem bitmix_lt_two_pow (h0 : Nat) (h : h0 < 2 ^ 64) : bitmix h0 < 2 ^ 64 := by
  unfold bitmix
  have s1 : bitmixStep1 h0 < 2 ^ 64 := by
    unfold bitmixStep1
    exact Nat.xor_lt_two_pow h
      (Nat.xor_lt_two_pow (rotr_lt_two_pow h0 25 h (by norm_num))
        (rotr_lt_two_pow h0 50 h (by norm_num)))
  have s2 : bitmixStep2 (bitmixStep1 h0) < 2 ^ 64 :=
    Nat.mod_lt _ (Nat.pos_pow_of_pos _ (by norm_num))
  have s3 : bitmixStep3 (bitmixStep2 (bitmixStep1 h0)) < 2 ^ 64 := by
    unfold bitmixStep3
    exact Nat.xor_lt_two_pow s2
      (Nat.xor_lt_two_pow (rotr_lt_two_pow _ 24 s2 (by norm_num))
        (rotr_lt_two_pow _ 49 s2 (by norm_num)))
  have s4 : bitmixStep4 (bitmixStep3 (bitmixStep2 (bitmixStep1 h0))) < 2 ^ 64 :=
    Nat.mod_lt _ (Nat.pos_pow_of_pos _ (by norm_num))
  unfold bitmixStep5
  exact Nat.xor_lt_two_pow s4
    (lt_of_le_of_lt
      (by rw [Nat.shiftRight_eq_div_pow]; exact Nat.div_le_self _ _) s4)

/-- The pure-map view of the container that the public-operation claims use:
the list of `(key, value)` pairs currently stored.  Claims about `insert`,
`read`, `retain` and `clear` are settled against this state. -/
structure HashIndexM (K V : Type) where
  entries : List (K × V)
deriving DecidableEq

/-- Membership lookup over the stored entries, by full key equality. -/
def lookup {K V : Type} [DecidableEq K] : List (K × V) → K → Option V
  | [], _ => none
  | (k', v') :: rest, k => if k = k' then some v' else lookup rest k

/-- Modelled from the spec: `HashIndex::insert` (lines 111-118) reserves a
cell for the key and delegates to `CellLocker::insert`; the cell side lives
in the absent `src/cell.rs`, and §4.5/§7 of the spec fix it: the insert
fails and hands the `(key, value)` pair back exactly when the key already
exists, and stores the pair otherwise.  Returns the Rust result and the
state after the call (unchanged on failure: no removal is performed). -/
def insertM {K V : Type} [DecidableEq K] (st : HashIndexM K V) (k : K) (v : V) :
    Except (K × V) Unit × HashIndexM K V :=
  match lookup st.entries k with
  | some _ => (Except.error (k, v), st)
  | none => (Except.ok (), ⟨(k, v) :: st.entries⟩)

/-- `HashIndex::read` (lines 142-144) as the source has it: the body is the
placeholder `None`, whatever the state, key and closure. -/
def readM {K V R : Type} (_st : HashIndexM K V) (_key : K) (_f : K → V → R) : Option R :=
  none

/-- `HashIndex::retain` (lines 154-156) as the source has it: the body is
the placeholder `(0, 0)`, whatever the state and predicate. -/
def retainM {K V : Type} (_st : HashIndexM K V) (_f : K → V → Bool) : Nat × Nat :=
  (0, 0)

/-- `HashIndex::clear` (lines 164-166): `self.retain(|_, _| false).1`, the
second component (the removed count) of `retain` at the always-false
predicate. -/
def clearM {K V : Type} (st : HashIndexM K V) : Nat :=
  (retainM st (fun _ _ => false)).2

/-- C9: for every HashIndex state, `clear()` returns exactly the second
component (the removed count) of `retain` applied to the always-false
predicate, as `HashIndex::clear` (line 165) computes it. -/
theorem clear_eq_retain_false {K V : Type} (st : HashIndexM K V) :
    clearM st = (retainM st (fun _ _ => false)).2 := rfl

/-- C1 (code evaluated at the failing input): `insert(1, 0)` into an empty
index succeeds and the key is stored, yet the subsequent
`read(1, |_, v| *v)` of the source returns `None`, because
`HashIndex::read` (lines 142-144) is a placeholder returning `None`
unconditionally.  The claim (and the spec, §4.5) requires `Some (f 1 0)`
here. -/
theorem read_placeholder_after_insert :
    (insertM (⟨[]⟩ : HashIndexM Nat Nat) 1 0).1 = Except.ok () ∧
    lookup (insertM (⟨[]⟩ : HashIndexM Nat Nat) 1 0).2.entries 1 = some 0 ∧
    readM (insertM (⟨[]⟩ : HashIndexM Nat Nat) 1 0).2 1 (fun _ v => v) = none :=
  ⟨rfl, rfl, rfl⟩

/-- C2: inserting a key that is already present fails with exactly the
`(key, value)` pair that was passed in and leaves the state unchanged (no
removal is performed); inserting an absent key succeeds and stores the
pair. -/
theorem insert_duplicate_unchanged {K V : Type} [DecidableEq K]
    (st : HashIndexM K V) (k : K) (v2 : V) :
    (∀ v0, lookup st.entries k = some v0 →
        insertM st k v2 = (Except.error (k, v2), st)) ∧
    (lookup st.entries k = none →
        insertM st k v2 = (Except.ok (), ⟨(k, v2) :: st.entries⟩)) := by
  constructor
  · intro v0 h
    simp [insertM, h]
  · intro h
    simp [insertM, h]

/-- Witness for C2 at concrete inputs: a duplicate insert of key 1 into a
state holding `(1, 10)` returns the rejected pair `(1, 99)` and keeps the
state; an insert of the absent key 2 succeeds. -/
theorem insert_duplicate_unchanged_witness :
    insertM (⟨[(1, 10)]⟩ : HashIndexM Nat Nat) 1 99 = (Except.error (1, 99), ⟨[(1, 10)]⟩) ∧
    insertM (⟨[]⟩ : HashIndexM Nat Nat) 2 5 = (Except.ok (), ⟨[(2, 5)]⟩) :=
  ⟨(insert_duplicate_unchanged ⟨[(1, 10)]⟩ 1 99).1 10 rfl,
    (insert_duplicate_unchanged ⟨[]⟩ 2 5).2 rfl⟩

/-- C10: the low-8-bit mask applied in `HashIndex::hash` (line 231) always
yields a value below 256, for every `u64` value, so the `u64 -> u8`
conversion always succeeds and the `unwrap` can never observe an error:
`hashPair` always carries `some` in its second component. -/
theorem masked_hash_fits_u8 (h : Nat) :
    h &&& ((1 <<< 8) - 1) < 256 ∧
    tryIntoU8 (h &&& ((1 <<< 8) - 1)) = some (h &&& ((1 <<< 8) - 1)) ∧
    (hashPair h).2.isSome = true := by
  have h255 : (1 <<< 8) - 1 = (255 : Nat) := by norm_num [Nat.one_shiftLeft]
  have key : ∀ x : Nat, x &&& ((1 <<< 8) - 1) < 256 := by
    intro x
    have : x &&& ((1 <<< 8) - 1) ≤ (1 <<< 8) - 1 := Nat.and_le_right
    omega
  refine ⟨key h, ?_, ?_⟩
  · unfold tryIntoU8
    rw [if_pos (key h)]
  · show (tryIntoU8 (bitmix h &&& ((1 <<< 8) - 1))).isSome = true
    unfold tryIntoU8
    rw [if_pos (key (bitmix h))]
    rfl

/-- C7: `HashIndex::hash` computes the full hash as the fixed five-step
avalanche mix (rotate-xor, odd multiply, rotate-xor, odd multiply,
shift-xor) of the builder-derived 64-bit hash, stays within 64 bits, and
returns as partial hash exactly the low 8 bits (`full_hash % 256`) of the
full hash; both multipliers are odd, and determinism for a fixed
`(build_hasher, key)` holds because `hashPair` is a function of the
builder-derived hash. -/
theorem hash_bitmix_structure (h0 : Nat) (hb : h0 < 2 ^ 64) :
    (hashPair h0).1 = bitmixStep5 (bitmixStep4 (bitmixStep3 (bitmixStep2 (bitmixStep1 h0)))) ∧
    (hashPair h0).2 = some ((hashPair h0).1 % 256) ∧
    (hashPair h0).1 < 2 ^ 64 ∧
    0xA24BAED4963EE407 % 2 = 1 ∧ 0x9FB21C651E98DF25 % 2 = 1 := by
  refine ⟨rfl, ?_, bitmix_lt_two_pow h0 hb, by norm_num, by norm_num⟩
  show tryIntoU8 (bitmix h0 &&& ((1 <<< 8) - 1)) = some (bitmix h0 % 256)
  have hmask : bitmix h0 &&& ((1 <<< 8) - 1) = bitmix h0 % 256 := by
    have := Nat.and_pow_two_sub_one_eq_mod (bitmix h0) 8
    simpa [Nat.one_shiftLeft] using this
  rw [hmask]
  unfold tryIntoU8
  rw [if_pos (Nat.mod_lt _ (by norm_num))]

/-- Witness for C7 at the concrete builder hash 123. -/
theorem hash_bitmix_structure_witness :
    (123 : Nat) < 2 ^ 64 ∧
    ((hashPair 123).1 = bitmixStep5 (bitmixStep4 (bitmixStep3 (bitmixStep2 (bitmixStep1 123)))) ∧
      (hashPair 123).2 = some ((hashPair 123).1 % 256) ∧
      (hashPair 123).1 < 2 ^ 64 ∧
      0xA24BAED4963EE407 % 2 = 1 ∧ 0x9FB21C651E98DF25 % 2 = 1) :=
  ⟨by norm_num, hash_bitmix_structure 123 (by norm_num)⟩

/-- C6 (code evaluated at the failing input): the estimate
`num_cells / num_cells_to_sample` of `HashIndex::resize` (line 342, a
`[TODO]` stub) does not depend on the entry counts of any cell: a 4-cell
array whose cells are full (64 entries) and one whose cells are empty
(0 entries) both estimate 1 entry.  The claim requires the estimate to be
derived from the sampled cells' entry counts. -/
theorem resize_estimate_ignores_entries :
    numCellsToSample (numCells (⟨List.replicate 4 16, 4, false⟩ : ArrayModel)) = 4 ∧
    estimatedNumEntries (⟨List.replicate 4 16, 4, false⟩ : ArrayModel) = 1 ∧
    estimatedNumEntries (⟨List.replicate 4 0, 4, false⟩ : ArrayModel) = 1 ∧
    (List.replicate 4 16).sum = 64 ∧ (List.replicate 4 0).sum = 0 := by decide

/-- C8: a resize call that loses the `resize_mutex` race (`otherHolds`), or
that observes the array pointer changed between its first load and the
re-check under the mutex (`ptrChanged`), returns without allocating a new
array and with the HashIndex state (in particular the array pointer)
unchanged. -/
theorem resize_noop_frame (st : HashIndexState) (otherHolds ptrChanged : Bool)
    (h : otherHolds = true ∨ ptrChanged = true) :
    resizeStep st otherHolds ptrChanged = (st, false) := by
  rcases h with h | h
  · subst h
    rfl
  · subst h
    cases otherHolds <;> rfl

/-- Witness for C8 at a concrete state and both interference inputs. -/
theorem resize_noop_frame_witness :
    (true = true ∨ false = true) ∧
    resizeStep ⟨⟨List.replicate 8 3, 4, false⟩, 64⟩ true false =
      (⟨⟨List.replicate 8 3, 4, false⟩, 64⟩, false) ∧
    resizeStep ⟨⟨List.replicate 8 3, 4, false⟩, 64⟩ false true =
      (⟨⟨List.replicate 8 3, 4, false⟩, 64⟩, false) :=
  ⟨Or.inl rfl,
    resize_noop_frame ⟨⟨List.replicate 8 3, 4, false⟩, 64⟩ true false (Or.inl rfl),
    resize_noop_frame ⟨⟨List.replicate 8 3, 4, false⟩, 64⟩ false true (Or.inr rfl)⟩

/-- C5 (amended): in every reserve call the resize-signal path is taken on
the first loop iteration exactly when the locked cell's INDEX is below
`ARRAY_SIZE` (not merely when the cell is in the current array) and its
entry count has reached `ARRAY_SIZE`; with the `resize_triggered` flag set
the path is never taken again, so it runs at most once per call; and the
path's body samples the first `num_sample_size` cells only when no old
array is attached, invoking `resize` exactly when the summed entry count of
the sample exceeds 7/8 of the sampled capacity
(`sample_size * (ARRAY_SIZE / 8) * 7`). -/
theorem reserve_trigger_amended (st : HashIndexState) (hash fuel : Nat) :
    (reserveLoop hash (fuel + 1) st false).2.2 =
      (if calculateCellIndex st.arr hash < ARRAY_SIZE ∧
          ARRAY_SIZE ≤ cellNumEntries st.arr (calculateCellIndex st.arr hash)
        then 1 else 0) ∧
    (reserveLoop hash fuel st true).2.2 = 0 ∧
    reserveResizeCheck st =
      (if st.arr.oldAttached = false ∧
          reserveThreshold st.arr < (st.arr.cells.take st.arr.sampleSize).sum
        then (resizeStep st false false).1 else st) := by
  refine ⟨?_, reserveLoop_triggered hash fuel st, ?_⟩
  · by_cases hcond : calculateCellIndex st.arr hash < ARRAY_SIZE ∧
        ARRAY_SIZE ≤ cellNumEntries st.arr (calculateCellIndex st.arr hash)
    · simp only [reserveLoop, reserveLoop_triggered]
      rw [if_pos (show True ∧ _ ∧ _ from ⟨trivial, hcond.1, hcond.2⟩), if_pos hcond]
    · simp only [reserveLoop, reserveLoop_triggered]
      rw [if_neg (fun hc => hcond ⟨hc.2.1, hc.2.2⟩), if_neg hcond]
  · unfold reserveResizeCheck
    rw [sampleExceeds_eq_sum (reserveThreshold st.arr)
      (st.arr.cells.take st.arr.sampleSize) 0 (Nat.zero_le _)]
    by_cases hold : st.arr.oldAttached = false
    · by_cases hthr : reserveThreshold st.arr < (st.arr.cells.take st.arr.sampleSize).sum
      · rw [if_pos hold, if_pos (by simpa using hthr), if_pos ⟨hold, hthr⟩]
      · rw [if_pos hold, if_neg (by simpa using hthr), if_neg (fun hc => hthr hc.2)]
    · rw [if_neg hold, if_neg (fun hc => hold hc.1)]

/-- C5 counterexample: a 32-cell current array (capacity 512) with every
cell full (16 entries each), no old array attached, and a key hashing to
cell 20.  The locked cell is in the current array and its entry count has
reached `ARRAY_SIZE`, and the sample sum (64) exceeds the threshold (56),
so the claim requires the resize-signal path to run; the code skips it
because the cell index 20 is not below `ARRAY_SIZE = 16`: the path runs 0
times and the state is untouched. -/
theorem reserve_trigger_cex :
    calculateCellIndex (⟨List.replicate 32 16, 4, false⟩ : ArrayModel) 20 = 20 ∧
    ARRAY_SIZE ≤ cellNumEntries (⟨List.replicate 32 16, 4, false⟩ : ArrayModel) 20 ∧
    (⟨List.replicate 32 16, 4, false⟩ : ArrayModel).oldAttached = false ∧
    reserveThreshold (⟨List.replicate 32 16, 4, false⟩ : ArrayModel) <
      ((⟨List.replicate 32 16, 4, false⟩ : ArrayModel).cells.take 4).sum ∧
    (reserveLoop 20 2 ⟨⟨List.replicate 32 16, 4, false⟩, 64⟩ false).2.2 = 0 ∧
    (reserveLoop 20 2 ⟨⟨List.replicate 32 16, 4, false⟩, 64⟩ false).1 =
      ⟨⟨List.replicate 32 16, 4, false⟩, 64⟩ := by decide

theorem maxCapacity_eq : maxCapacity = 2 ^ 63 := by
  rw [maxCapacity, Nat.one_shiftLeft]

theorem maxCapacity_div_two : maxCapacity / 2 = 2 ^ 62 := by
  rw [maxCapacity_eq, pow_succ, Nat.mul_div_cancel _ (by norm_num)]

/-- The final capping `if` of the growth branch of `HashIndex::resize`
(lines 357-361) equals a `min` when both the capacity and the candidate are
powers of two. -/
theorem growth_cap_min (cap cand : Nat) (hcap : ∃ a, cap = 2 ^ a)
    (hcand : ∃ b, cand = 2 ^ b) :
    (if 1 <<< MAX_RESIZING_FACTOR < cand / cap then
        cap * (1 <<< MAX_RESIZING_FACTOR)
      else cand) = min cand (cap * 2 ^ MAX_RESIZING_FACTOR) := by
  obtain ⟨a, rfl⟩ := hcap
  obtain ⟨b, rfl⟩ := hcand
  rw [Nat.one_shiftLeft]
  by_cases hle : 2 ^ b ≤ 2 ^ a * 2 ^ MAX_RESIZING_FACTOR
  · have hdiv : 2 ^ b / 2 ^ a ≤ 2 ^ MAX_RESIZING_FACTOR := by
      calc 2 ^ b / 2 ^ a ≤ 2 ^ a * 2 ^ MAX_RESIZING_FACTOR / 2 ^ a :=
            Nat.div_le_div_right hle
        _ = 2 ^ MAX_RESIZING_FACTOR :=
            Nat.mul_div_cancel_left _ (Nat.pos_pow_of_pos a (by norm_num))
    rw [if_neg (by omega), min_eq_left hle]
  · push_neg at hle
    have hab : a + MAX_RESIZING_FACTOR < b := by
      have hlt : (2 : Nat) ^ (a + MAX_RESIZING_FACTOR) < 2 ^ b := by
        rw [pow_add]; exact hle
      exact (pow_lt_pow_iff_right₀ (by norm_num)).1 hlt
    have hdiv : 2 ^ b / 2 ^ a = 2 ^ (b - a) := Nat.pow_div (by omega) (by norm_num)
    have hgt : 2 ^ MAX_RESIZING_FACTOR < 2 ^ b / 2 ^ a := by
      rw [hdiv]
      exact (pow_lt_pow_iff_right₀ (by norm_num)).2 (by omega)
    rw [if_pos hgt, min_eq_right (le_of_lt hle)]

/-- C3 (amended): in a resize that keeps the flag and sees an unchanged
pointer, with the current capacity a power of two and an estimate at least
7/8 of it: at the maximum capacity nothing changes; with the estimate at
most 9/8 of capacity the capacity doubles; otherwise the new capacity is
TWICE the least power of two at least the estimate (that power first capped
at `maxCapacity / 2`), the whole capped at `capacity * 2 ^
MAX_RESIZING_FACTOR` — not the next power of two above the estimate itself;
and the result never exceeds `capacity * 2 ^ MAX_RESIZING_FACTOR`. -/
theorem resize_growth_rule_amended (cap est minCap : Nat) (hpow : ∃ k, cap = 2 ^ k)
    (h78 : (cap / 8) * 7 ≤ est) :
    (cap = maxCapacity → newCapacity cap est minCap = cap) ∧
    (cap ≠ maxCapacity → est ≤ (cap / 8) * 9 → newCapacity cap est minCap = cap * 2) ∧
    (cap ≠ maxCapacity → (cap / 8) * 9 < est →
      newCapacity cap est minCap =
        min (min (nextPow2 est) (maxCapacity / 2) * 2) (cap * 2 ^ MAX_RESIZING_FACTOR)) ∧
    newCapacity cap est minCap ≤ cap * 2 ^ MAX_RESIZING_FACTOR := by
  have h1 : cap = maxCapacity → newCapacity cap est minCap = cap := by
    intro hmax
    unfold newCapacity
    rw [if_pos h78, if_pos hmax]
  have h2 : cap ≠ maxCapacity → est ≤ (cap / 8) * 9 →
      newCapacity cap est minCap = cap * 2 := by
    intro hmax h98
    unfold newCapacity
    rw [if_pos h78, if_neg hmax, if_pos h98]
  have h3 : cap ≠ maxCapacity → (cap / 8) * 9 < est →
      newCapacity cap est minCap =
        min (min (nextPow2 est) (maxCapacity / 2) * 2) (cap * 2 ^ MAX_RESIZING_FACTOR) := by
    intro hmax h98
    unfold newCapacity
    rw [if_pos h78, if_neg hmax, if_neg (by omega)]
    show (if 1 <<< MAX_RESIZING_FACTOR <
          min (nextPow2 est) (maxCapacity / 2) * 2 / cap then
        cap * (1 <<< MAX_RESIZING_FACTOR)
      else min (nextPow2 est) (maxCapacity / 2) * 2) = _
    apply growth_cap_min cap _ hpow
    obtain ⟨k, hk⟩ := nextPow2_pow est
    rcases le_total (nextPow2 est) (maxCapacity / 2) with hle | hle
    · exact ⟨k + 1, by rw [min_eq_left hle, hk, pow_succ]⟩
    · exact ⟨63, by rw [min_eq_right hle, maxCapacity_div_two, ← pow_succ]⟩
  refine ⟨h1, h2, h3, ?_⟩
  by_cases hmax : cap = maxCapacity
  · rw [h1 hmax]
    calc cap = cap * 1 := (Nat.mul_one cap).symm
      _ ≤ cap * 2 ^ MAX_RESIZING_FACTOR := Nat.mul_le_mul_left cap Nat.one_le_two_pow
  · by_cases h98 : est ≤ (cap / 8) * 9
    · rw [h2 hmax h98]
      exact Nat.mul_le_mul_left cap (by norm_num [MAX_RESIZING_FACTOR])
    · rw [h3 hmax (by omega)]
      exact min_le_right _ _

/-- C3 counterexample: capacity 64, estimate 100 (at least 7/8 and more
than 9/8 of capacity, capacity below the maximum).  The next power of two
above the estimate is 128, but the code computes
`nextPow2(100).min(maxCapacity / 2) * 2 = 256`. -/
theorem resize_growth_rule_cex :
    (64 / 8) * 7 ≤ 100 ∧ (64 / 8) * 9 < 100 ∧ (64 : Nat) ≠ maxCapacity ∧
    nextPow2 100 = 128 ∧ newCapacity 64 100 64 = 256 ∧
    newCapacity 64 100 64 ≠ nextPow2 100 := by decide

/-- Witness for C3 at capacity 64, estimate 100, minimum capacity 64. -/
theorem resize_growth_rule_witness :
    ((64 : Nat) = maxCapacity → newCapacity 64 100 64 = 64) ∧
    ((64 : Nat) ≠ maxCapacity → 100 ≤ (64 / 8) * 9 → newCapacity 64 100 64 = 64 * 2) ∧
    ((64 : Nat) ≠ maxCapacity → (64 / 8) * 9 < 100 →
      newCapacity 64 100 64 =
        min (min (nextPow2 100) (maxCapacity / 2) * 2) (64 * 2 ^ MAX_RESIZING_FACTOR)) ∧
    newCapacity 64 100 64 ≤ 64 * 2 ^ MAX_RESIZING_FACTOR :=
  resize_growth_rule_amended 64 100 64 ⟨6, rfl⟩ (by norm_num)

/-- C4 (amended): in a resize that keeps the flag and sees an unchanged
pointer, with the estimate at most 1/8 of the (power-of-two, at least 64,
at most maximal) capacity, the new capacity is the MAXIMUM of the least
power of two at least the estimate and `minimum_capacity` — which is
`minimum_capacity` itself, not a power of two above it, whenever
`minimum_capacity` dominates; `nextPow2` really is the least power of two
at least its argument; and for every estimate the capacity a resize
computes never drops below `minimum_capacity` (given
`minimum_capacity ≤ capacity`). -/
theorem resize_shrink_rule_amended (cap est minCap : Nat) (hpow : ∃ k, cap = 2 ^ k)
    (hcap : 64 ≤ cap) (hmaxc : cap ≤ maxCapacity) (hmin : minCap ≤ cap)
    (h18 : est ≤ cap / 8) :
    newCapacity cap est minCap = max (nextPow2 est) minCap ∧
    est ≤ nextPow2 est ∧ (∃ k, nextPow2 est = 2 ^ k) ∧
    (∀ j, est ≤ 2 ^ j → nextPow2 est ≤ 2 ^ j) ∧
    (∀ e, minCap ≤ newCapacity cap e minCap) := by
  obtain ⟨k, rfl⟩ := hpow
  have hk6 : 6 ≤ k := by
    by_contra hlt
    push_neg at hlt
    have h2 : (2 : Nat) ^ k ≤ 2 ^ 5 := pow_le_pow_right₀ (by norm_num) (by omega)
    have h32 : (2 : Nat) ^ 5 = 32 := by norm_num
    omega
  have hq : 2 ^ k / 8 * 8 = 2 ^ k := by
    have hdvd : (8 : Nat) ∣ 2 ^ k := by
      have h8 : (8 : Nat) = 2 ^ 3 := by norm_num
      rw [h8]
      exact pow_dvd_pow 2 (by omega)
    exact Nat.div_mul_cancel hdvd
  refine ⟨?_, nextPow2_ge est, nextPow2_pow est, fun j hj => nextPow2_min est j hj, ?_⟩
  · unfold newCapacity
    rw [if_neg (by omega), if_pos h18]
  · intro e
    unfold newCapacity
    by_cases h78 : 2 ^ k / 8 * 7 ≤ e
    · by_cases hm : (2 : Nat) ^ k = maxCapacity
      · rw [if_pos h78, if_pos hm]
        omega
      · by_cases h98 : e ≤ 2 ^ k / 8 * 9
        · rw [if_pos h78, if_neg hm, if_pos h98]
          omega
        · rw [if_pos h78, if_neg hm, if_neg h98]
          show minCap ≤ if 1 <<< MAX_RESIZING_FACTOR <
                min (nextPow2 e) (maxCapacity / 2) * 2 / 2 ^ k then
              2 ^ k * (1 <<< MAX_RESIZING_FACTOR)
            else min (nextPow2 e) (maxCapacity / 2) * 2
          have he : 2 ^ k < e := by omega
          have h1 : 2 ^ k ≤ nextPow2 e := le_trans (le_of_lt he) (nextPow2_ge e)
          have hk62 : k ≤ 62 := by
            have hle63 : k ≤ 63 := by
              rw [maxCapacity_eq] at hmaxc
              exact (pow_le_pow_iff_right₀ (by norm_num)).1 hmaxc
            rcases Nat.lt_or_ge k 63 with h | h
            · omega
            · exact absurd (by rw [maxCapacity_eq, show k = 63 by omega]) hm
          have h2 : 2 ^ k ≤ maxCapacity / 2 := by
            rw [maxCapacity_div_two]
            exact pow_le_pow_right₀ (by norm_num) hk62
          have hcap_le : 2 ^ k ≤ min (nextPow2 e) (maxCapacity / 2) * 2 := by
            have := le_min h1 h2
            omega
          by_cases hc : 1 <<< MAX_RESIZING_FACTOR <
              min (nextPow2 e) (maxCapacity / 2) * 2 / 2 ^ k
          · rw [if_pos hc]
            have hone : (1 : Nat) ≤ 1 <<< MAX_RESIZING_FACTOR := by
              rw [Nat.one_shiftLeft]
              exact Nat.one_le_two_pow
            calc minCap ≤ 2 ^ k := hmin
              _ = 2 ^ k * 1 := (Nat.mul_one _).symm
              _ ≤ 2 ^ k * (1 <<< MAX_RESIZING_FACTOR) := Nat.mul_le_mul_left _ hone
          · rw [if_neg hc]
            omega
    · by_cases h18e : e ≤ 2 ^ k / 8
      · rw [if_neg h78, if_pos h18e]
        exact le_max_right (nextPow2 e) minCap
      · rw [if_neg h78, if_neg h18e]
        exact hmin

/-- C4 counterexample: capacity 128, estimate 5, minimum capacity 100 (the
state `HashIndex::new(100, _)` with one doubling produces).  The claim
requires the next power of two at least the estimate and at least
`minimum_capacity`, i.e. 128; the code returns
`nextPow2(5).max(100) = 100`, which is not a power of two at all. -/
theorem resize_shrink_rule_cex :
    (5 : Nat) ≤ 128 / 8 ∧ (100 : Nat) ≤ 128 ∧ newCapacity 128 5 100 = 100 ∧
    nextPow2 (max 5 100) = 128 ∧ newCapacity 128 5 100 ≠ nextPow2 (max 5 100) ∧
    ¬ ∃ j, (100 : Nat) = 2 ^ j := by
  refine ⟨by norm_num, by norm_num, by decide, by decide, by decide, ?_⟩
  rintro ⟨j, hj⟩
  rcases le_or_lt j 2 with h | h
  · have h4 : (2 : Nat) ^ j ≤ 2 ^ 2 := pow_le_pow_right₀ (by norm_num) h
    have hv : (2 : Nat) ^ 2 = 4 := by norm_num
    omega
  · have hdvd : (8 : Nat) ∣ 2 ^ j := by
      have h8 : (8 : Nat) = 2 ^ 3 := by norm_num
      rw [h8]
      exact pow_dvd_pow 2 (by omega)
    rw [← hj] at hdvd
    omega

/-- Witness for C4 at capacity 128, estimate 5, minimum capacity 100. -/
theorem resize_shrink_rule_witness :
    newCapacity 128 5 100 = max (nextPow2 5) 100 ∧ (5 : Nat) ≤ nextPow2 5 ∧
    (100 : Nat) ≤ newCapacity 128 200 100 ∧ (100 : Nat) ≤ newCapacity 128 5 100 :=
  have h := resize_shrink_rule_amended 128 5 100 ⟨7, rfl⟩ (by norm_num)
    (by rw [maxCapacity_eq]; norm_num) (by norm_num) (by norm_num)
  ⟨h.1, h.2.1, h.2.2.2.2 200, h.2.2.2.2 5⟩

end SccHashIndex
